import Mathlib

/-!
Verification development for the resume-builder application (`app.py`).

Python strings are modeled as `List Char`.  `str.replace(old, new)` is modeled
by the scanner `replaceAll` below: it scans left to right, replaces each
non-overlapping occurrence of `old`, and never rescans inserted text — exactly
the semantics of CPython's `str.replace`.  Recursive scanners take an explicit
fuel argument (always instantiated with the length of the scanned list) so
that they are structurally recursive and compute inside the kernel.
-/

open List

set_option maxRecDepth 20000

/- The photo placeholder token, `'[[PROFILE_PHOTO]]'` in `app.py`. -/
def TOKEN : List Char := "[[PROFILE_PHOTO]]".toList

/- The exact image element removed when no photo is supplied (app.py line 997). -/
def CANON : List Char := "<img src=\"[[PROFILE_PHOTO]]\" class=\"profile-pic\" />".toList

/- The heading tag searched for by the fallback injection (app.py line 995). -/
def H1TAG : List Char := "<h1>".toList

/-
`replaceAllGo pat rep fuel l` models Python `l.replace(pat, rep)`:
left-to-right scan, non-overlapping occurrences, replacement text not
rescanned.  The fuel is an upper bound on the number of scanning steps;
`replaceAll` instantiates it with `l.length`, which always suffices.
-/
def replaceAllGo (pat rep : List Char) : Nat → List Char → List Char
  | 0, l => l
  | _ + 1, [] => []
  | fuel + 1, c :: cs =>
    if pat ≠ [] ∧ pat <+: c :: cs then
      rep ++ replaceAllGo pat rep fuel ((c :: cs).drop pat.length)
    else
      c :: replaceAllGo pat rep fuel cs

/- Python `l.replace(pat, rep)`. -/
def replaceAll (pat rep l : List Char) : List Char :=
  replaceAllGo pat rep l.length l

theorem replaceAllGo_no_occurrence (pat rep : List Char) :
    ∀ fuel l, ¬ pat <:+: l → replaceAllGo pat rep fuel l = l := by
  intro fuel
  induction fuel with
  | zero => intro l _; rfl
  | succ n ih =>
    intro l h
    match l with
    | [] => rfl
    | c :: cs =>
      rw [replaceAllGo]
      have hguard : ¬ (pat ≠ [] ∧ pat <+: c :: cs) := by
        rintro ⟨_, hp⟩
        exact h hp.isInfix
      rw [if_neg hguard]
      have hcs : ¬ pat <:+: cs := fun hi => h (infix_cons hi)
      rw [ih cs hcs]

/- If the pattern does not occur in the string, `replace` is the identity. -/
theorem replaceAll_no_occurrence (pat rep l : List Char) (h : ¬ pat <:+: l) :
    replaceAll pat rep l = l :=
  replaceAllGo_no_occurrence pat rep l.length l h

/- The fuel is irrelevant once it dominates the length of the scanned list. -/
theorem replaceAllGo_fuel (pat rep : List Char) (hpat : pat ≠ []) :
    ∀ f1 f2 l, l.length ≤ f1 → l.length ≤ f2 →
      replaceAllGo pat rep f1 l = replaceAllGo pat rep f2 l := by
  intro f1
  induction f1 with
  | zero =>
    intro f2 l h1 _
    have hl : l = [] := by
      cases l with
      | nil => rfl
      | cons c cs => simp at h1
    subst hl
    cases f2 <;> rfl
  | succ n ih =>
    intro f2 l h1 h2
    match l with
    | [] => cases f2 <;> rfl
    | c :: cs =>
      match f2 with
      | 0 => simp at h2
      | m + 1 =>
        rw [replaceAllGo, replaceAllGo]
        by_cases hguard : pat ≠ [] ∧ pat <+: c :: cs
        · rw [if_pos hguard, if_pos hguard]
          have hplen : 1 ≤ pat.length := by
            cases pat with
            | nil => exact absurd rfl hpat
            | cons p ps => simp
          have hd1 : ((c :: cs).drop pat.length).length ≤ n := by
            simp only [length_drop, length_cons]
            simp only [length_cons] at h1
            omega
          have hd2 : ((c :: cs).drop pat.length).length ≤ m := by
            simp only [length_drop, length_cons]
            simp only [length_cons] at h2
            omega
          rw [ih m _ hd1 hd2]
        · rw [if_neg hguard, if_neg hguard]
          have hc1 : cs.length ≤ n := by simp only [length_cons] at h1; omega
          have hc2 : cs.length ≤ m := by simp only [length_cons] at h2; omega
          rw [ih m cs hc1 hc2]

theorem prefix_append_cases {t a b : List Char} (h : t <+: a ++ b) :
    t <+: a ∨ ∃ t2, t = a ++ t2 ∧ t2 <+: b := by
  by_cases hle : t.length ≤ a.length
  · left
    exact ( isPrefix_append_of_length hle).mp h
  · right
    have ha : a <+: t := by
      rcases prefix_or_prefix_of_prefix h (prefix_append a b) with h1 | h2
      · exact absurd h1.length_le hle
      · exact h2
    rcases ha with ⟨t2, ht⟩
    refine ⟨t2, ht.symm, ?_⟩
    rcases h with ⟨u, hu⟩
    rw [← ht, append_assoc] at hu
    exact ⟨u, append_cancel_left hu⟩

theorem infix_append_cases {t a b : List Char} (h : t <:+: a ++ b) :
    t <:+: a ∨ t <:+: b ∨
      ∃ t1 t2, t = t1 ++ t2 ∧ t1 ≠ [] ∧ t2 ≠ [] ∧ t1 <:+ a ∧ t2 <+: b := by
  induction a with
  | nil =>
    right; left
    simpa using h
  | cons x a2 ih =>
    rw [cons_append, infix_cons_iff] at h
    rcases h with hp | hi
    · have hp2 : t <+: (x :: a2) ++ b := by simpa using hp
      rcases prefix_append_cases hp2 with h1 | ⟨t2, rfl, h2⟩
      · left
        exact h1.isInfix
      · by_cases ht2 : t2 = []
        · left
          subst ht2
          simp
        · right; right
          exact ⟨x :: a2, t2, rfl, by simp, ht2, suffix_rfl, h2⟩
    · rcases ih hi with h1 | h2 | ⟨t1, t2, rfl, hne1, hne2, hsuf, hpre⟩
      · left
        exact infix_cons h1
      · right; left
        exact h2
      · right; right
        exact ⟨t1, t2, rfl, hne1, hne2, hsuf.trans (suffix_cons x a2), hpre⟩

theorem token_ne_nil : TOKEN ≠ [] := by decide

theorem token_head_mem : '[' ∈ TOKEN := by decide

theorem token_cons : TOKEN = '[' :: TOKEN.drop 1 := by decide

theorem token_drop_mem : ∀ k, k < TOKEN.length → 0 < k → ']' ∈ TOKEN.drop k := by decide

theorem token_pre_head : ∀ t : List Char, t ≠ [] → t <+: TOKEN → '[' ∈ t := by
  intro t hne hpre
  match t with
  | [] => exact absurd rfl hne
  | a :: t2 =>
    rw [token_cons, cons_prefix_cons] at hpre
    rw [hpre.1]
    exact mem_cons_self '[' t2

/-
Core lemma: replacing `pat` by `rep` never leaves (and never creates) an
occurrence of the placeholder token, provided `rep` contains no square
bracket and is not itself a fragment of the token, and provided the token
either is the replaced pattern or did not occur in the input.
-/
theorem replace_token_free_aux (pat rep : List Char) (hpat : pat ≠ [])
    (h1 : '[' ∉ rep) (h2 : ']' ∉ rep) (h3 : ¬ rep <:+: TOKEN) :
    ∀ fuel l, l.length ≤ fuel → (pat = TOKEN ∨ ¬ TOKEN <:+: l) →
      (¬ TOKEN <:+: replaceAllGo pat rep fuel l) ∧
      (∀ k, 0 < k → k < TOKEN.length →
        TOKEN.drop k <+: replaceAllGo pat rep fuel l → TOKEN.drop k <+: l) := by
  intro fuel
  induction fuel with
  | zero =>
    intro l hlen _
    have hl : l = [] := by
      cases l with
      | nil => rfl
      | cons c cs => simp at hlen
    subst hl
    constructor
    · intro hTok
      rw [show replaceAllGo pat rep 0 [] = [] from rfl, infix_nil] at hTok
      exact token_ne_nil hTok
    · intro k hk0 hk17 hkpre
      rw [show replaceAllGo pat rep 0 [] = [] from rfl, prefix_nil] at hkpre
      have := congrArg List.length hkpre
      simp [length_drop] at this
      omega
  | succ n ih =>
    intro l hlen hdisj
    match l with
    | [] =>
      constructor
      · intro hTok
        rw [show replaceAllGo pat rep (n+1) [] = [] from rfl, infix_nil] at hTok
        exact token_ne_nil hTok
      · intro k hk0 hk17 hkpre
        rw [show replaceAllGo pat rep (n+1) [] = [] from rfl, prefix_nil] at hkpre
        have := congrArg List.length hkpre
        simp [length_drop] at this
        omega
    | c :: cs =>
      rw [replaceAllGo]
      by_cases hguard : pat ≠ [] ∧ pat <+: c :: cs
      · rw [if_pos hguard]
        have hplen : 1 ≤ pat.length := by
          cases pat with
          | nil => exact absurd rfl hpat
          | cons p ps => simp
        have hdlen : ((c :: cs).drop pat.length).length ≤ n := by
          simp only [length_drop, length_cons]
          simp only [length_cons] at hlen
          omega
        have hddisj : pat = TOKEN ∨ ¬ TOKEN <:+: (c :: cs).drop pat.length := by
          rcases hdisj with hL | hR
          · exact Or.inl hL
          · refine Or.inr fun hT => hR ?_
            exact hT.trans (drop_suffix pat.length (c :: cs)).isInfix
        have IH := ih ((c :: cs).drop pat.length) hdlen hddisj
        constructor
        · intro hTok
          rcases infix_append_cases hTok with hA | hB | ⟨t1, t2, heq, ht1, ht2, hsuf, hpre⟩
          · exact h1 (hA.mem token_head_mem)
          · exact IH.1 hB
          · have ht1pre : t1 <+: TOKEN := ⟨t2, heq.symm⟩
            exact h1 (hsuf.mem (token_pre_head t1 ht1 ht1pre))
        · intro k hk0 hk17 hkpre
          exfalso
          by_cases hlc : (TOKEN.drop k).length ≤ rep.length
          · have hr : TOKEN.drop k <+: rep := ( isPrefix_append_of_length hlc).mp hkpre
            exact h2 (hr.mem (token_drop_mem k hk17 hk0))
          · have hr : rep <+: TOKEN.drop k := by
              rcases prefix_or_prefix_of_prefix hkpre (prefix_append rep _) with ha | hb
              · exact absurd ha.length_le hlc
              · exact hb
            exact h3 (infix_iff_prefix_suffix.mpr ⟨TOKEN.drop k, hr, drop_suffix k TOKEN⟩)
      · rw [if_neg hguard]
        have hclen : cs.length ≤ n := by
          simp only [length_cons] at hlen
          omega
        have hcdisj : pat = TOKEN ∨ ¬ TOKEN <:+: cs := by
          rcases hdisj with hL | hR
          · exact Or.inl hL
          · exact Or.inr fun hT => hR (infix_cons hT)
        have IH := ih cs hclen hcdisj
        have tokLen : 1 < TOKEN.length := by decide
        constructor
        · intro hTok
          rw [infix_cons_iff] at hTok
          rcases hTok with hp | hi
          · rw [token_cons, cons_prefix_cons] at hp
            have hdrop1 : TOKEN.drop 1 <+: cs := IH.2 1 (by omega) tokLen hp.2
            have hfull : TOKEN <+: c :: cs := by
              rw [token_cons, cons_prefix_cons]
              exact ⟨hp.1, hdrop1⟩
            rcases hdisj with hL | hR
            · exact hguard ⟨by rw [hL]; exact token_ne_nil, by rw [hL]; exact hfull⟩
            · exact hR hfull.isInfix
          · exact IH.1 hi
        · intro k hk0 hk17 hkpre
          have hd := drop_eq_getElem_cons hk17
          rw [hd, cons_prefix_cons] at hkpre
          by_cases hk1 : k + 1 < TOKEN.length
          · have hrec : TOKEN.drop (k + 1) <+: cs := IH.2 (k + 1) (by omega) hk1 hkpre.2
            rw [hd, cons_prefix_cons]
            exact ⟨hkpre.1, hrec⟩
          · have hdropnil : TOKEN.drop (k + 1) = [] := drop_of_length_le (by omega)
            rw [hd, cons_prefix_cons, hdropnil]
            exact ⟨hkpre.1, by simp⟩

theorem replace_token_free (pat rep l : List Char) (hpat : pat ≠ [])
    (h1 : '[' ∉ rep) (h2 : ']' ∉ rep) (h3 : ¬ rep <:+: TOKEN)
    (hd : pat = TOKEN ∨ ¬ TOKEN <:+: l) :
    ¬ TOKEN <:+: replaceAll pat rep l :=
  (replace_token_free_aux pat rep hpat h1 h2 h3 l.length l le_rfl hd).1

theorem replaceAllGo_split (pat rep : List Char) (hpat : pat ≠ []) :
    ∀ x fuel y, (x ++ (pat ++ y)).length ≤ fuel →
      (∀ i, i < x.length → ¬ pat <+: (x ++ (pat ++ y)).drop i) →
      replaceAllGo pat rep fuel (x ++ (pat ++ y)) = x ++ (rep ++ replaceAll pat rep y) := by
  intro x
  induction x with
  | nil =>
    intro fuel y hlen hx
    simp only [nil_append] at hlen ⊢
    match pat, hpat with
    | p :: ps, _ =>
      match fuel with
      | 0 => simp at hlen
      | f + 1 =>
        rw [show (p :: ps) ++ y = p :: (ps ++ y) from rfl, replaceAllGo]
        have hguard : (p :: ps) ≠ [] ∧ (p :: ps) <+: p :: (ps ++ y) := by
          refine ⟨by simp, ?_⟩
          exact ⟨y, by simp⟩
        rw [if_pos hguard]
        have hdrop : (p :: (ps ++ y)).drop (p :: ps).length = y := by
          rw [show p :: (ps ++ y) = (p :: ps) ++ y from rfl, drop_left]
        rw [hdrop]
        have hylen : y.length ≤ f := by
          simp only [length_cons, length_append] at hlen
          omega
        rw [replaceAllGo_fuel (p :: ps) rep (by simp) f y.length y hylen le_rfl]
        rfl
  | cons c x2 ih =>
    intro fuel y hlen hx
    match fuel with
    | 0 => simp at hlen
    | f + 1 =>
      rw [show (c :: x2) ++ (pat ++ y) = c :: (x2 ++ (pat ++ y)) from rfl, replaceAllGo]
      have hguard : ¬ (pat ≠ [] ∧ pat <+: c :: (x2 ++ (pat ++ y))) := by
        rintro ⟨_, hp⟩
        exact hx 0 (by simp) (by simpa using hp)
      rw [if_neg hguard]
      have hlen2 : (x2 ++ (pat ++ y)).length ≤ f := by
        simp only [length_cons, length_append] at hlen ⊢
        omega
      have hx2 : ∀ i, i < x2.length → ¬ pat <+: (x2 ++ (pat ++ y)).drop i := by
        intro i hi
        have := hx (i + 1) (by simp; omega)
        simpa using this
      rw [ih f y hlen2 hx2]
      rfl

/-
`replaceAll` on a string with a marked occurrence of the pattern: provided no
occurrence of the pattern starts inside the left part `x`, the marked
occurrence is replaced and scanning continues on the right part only.
-/
theorem replaceAll_split (pat rep x y : List Char) (hpat : pat ≠ [])
    (hx : ∀ i, i < x.length → ¬ pat <+: (x ++ (pat ++ y)).drop i) :
    replaceAll pat rep (x ++ (pat ++ y)) = x ++ (rep ++ replaceAll pat rep y) :=
  replaceAllGo_split pat rep hpat x (x ++ (pat ++ y)).length y le_rfl hx

/- The fixed part of the fallback image element before the photo data (app.py line 994). -/
def imgPre : List Char := "<img src=\"".toList

/- The fixed part of the fallback image element after the photo data (app.py line 994). -/
def imgPost : List Char :=
  "\" class=\"profile-pic\" style=\"width:80px; height:80px; border-radius:6px; margin-right:15px;\" /><br>".toList

/- The `img_tag` string built in app.py line 994 for the fallback injection. -/
def imgTag (p : List Char) : List Char := imgPre ++ p ++ imgPost

/-
The image-injection step of the pipeline (app.py lines 981-998): with a photo,
replace the placeholder token if present, otherwise insert the image element
before every `<h1>`; with no photo, remove the exact placeholder image element.
-/
def imageInjection (html : List Char) (photo : Option (List Char)) : List Char :=
  match photo with
  | some p =>
    if TOKEN <:+: html then replaceAll TOKEN p html
    else replaceAll H1TAG (imgTag p ++ H1TAG) html
  | none => replaceAll CANON [] html

theorem token_length : TOKEN.length = 17 := by decide

theorem imgRep_no_lbracket (p : List Char) (hb1 : '[' ∉ p) : '[' ∉ imgTag p ++ H1TAG := by
  intro hmem
  rw [imgTag] at hmem
  simp only [mem_append] at hmem
  rcases hmem with ((hA | hB) | hC) | hD
  · exact absurd hA (by decide)
  · exact hb1 hB
  · exact absurd hC (by decide)
  · exact absurd hD (by decide)

theorem imgRep_no_rbracket (p : List Char) (hb2 : ']' ∉ p) : ']' ∉ imgTag p ++ H1TAG := by
  intro hmem
  rw [imgTag] at hmem
  simp only [mem_append] at hmem
  rcases hmem with ((hA | hB) | hC) | hD
  · exact absurd hA (by decide)
  · exact hb2 hB
  · exact absurd hC (by decide)
  · exact absurd hD (by decide)

theorem imgRep_not_in_token (p : List Char) : ¬ (imgTag p ++ H1TAG) <:+: TOKEN := by
  intro hinf
  have hle := hinf.length_le
  rw [token_length] at hle
  simp only [imgTag, length_append] at hle
  have h1 : imgPost.length = 99 := by decide
  omega

/- A sample photo value of the shape produced by `process_profile_photo`. -/
def samplePhoto : List Char := "data:image/jpeg;base64,ABCD".toList

/- A sample short replacement value used in counterexamples. -/
def photoPic : List Char := "PIC".toList

/--
Claim C1, corrected.  As stated, the claim is false (see the counterexample:
with no photo, a placeholder token that does not occur inside the exact
literal image element survives).  Amended claim: (1) when a photo
representation is supplied (a data URI: it contains no square bracket and is
longer than the token), the produced markup never contains the placeholder
token, whether or not the placeholder was present; (2) when no photo is
supplied, the output is token-free whenever the input body was token-free;
(3) on the spec's canonical example, the exact placeholder image element is
removed entirely.
-/
theorem claim_C1_amended (html p : List Char) (hb1 : '[' ∉ p) (hb2 : ']' ∉ p)
    (hlen : 17 < p.length) :
    (¬ TOKEN <:+: imageInjection html (some p)) ∧
    (¬ TOKEN <:+: html → ¬ TOKEN <:+: imageInjection html none) ∧
    imageInjection ("<img src=\"[[PROFILE_PHOTO]]\" class=\"profile-pic\" /><h1>JANE DOE</h1>".toList) none
      = "<h1>JANE DOE</h1>".toList := by
  refine ⟨?_, ?_, by decide⟩
  · rw [show imageInjection html (some p)
        = if TOKEN <:+: html then replaceAll TOKEN p html
          else replaceAll H1TAG (imgTag p ++ H1TAG) html from rfl]
    by_cases hin : TOKEN <:+: html
    · rw [if_pos hin]
      refine replace_token_free TOKEN p html token_ne_nil hb1 hb2 ?_ (Or.inl rfl)
      intro hinf
      have h := hinf.length_le
      rw [token_length] at h
      omega
    · rw [if_neg hin]
      exact replace_token_free H1TAG (imgTag p ++ H1TAG) html (by decide)
        (imgRep_no_lbracket p hb1) (imgRep_no_rbracket p hb2)
        (imgRep_not_in_token p) (Or.inr hin)
  · intro hno
    rw [show imageInjection html none = replaceAll CANON [] html from rfl]
    have hc : ¬ CANON <:+: html := fun hcanon =>
      hno ((show TOKEN <:+: CANON by decide).trans hcanon)
    rw [replaceAll_no_occurrence CANON [] html hc]
    exact hno

/--
Claim C1 counterexample: a generated body consisting of the bare placeholder
token, with no photo supplied, reaches the renderer with the token intact —
the removal branch only deletes the exact literal image element.
-/
theorem claim_C1_cex :
    imageInjection TOKEN none = TOKEN ∧ TOKEN <:+: imageInjection TOKEN none := by
  exact ⟨by decide, by decide⟩

/--
Claim C1 witness: the amended theorem applied at a concrete photo value and
at the bare-token body.
-/
theorem claim_C1_witness :
    ('[' ∉ samplePhoto) ∧ (']' ∉ samplePhoto) ∧ 17 < samplePhoto.length ∧
      ¬ TOKEN <:+: imageInjection TOKEN (some samplePhoto) :=
  ⟨by decide, by decide, by decide,
    (claim_C1_amended TOKEN samplePhoto (by decide) (by decide) (by decide)).1⟩

/--
Claim C2, corrected.  As stated, the claim is false: `html.replace` replaces
every occurrence of the placeholder token, not exactly one, and it inserts
the bare encoded representation (the surrounding image element comes from the
template markup, not from the substitution).  Amended claim: every occurrence
of the token is replaced by the encoded representation; in particular, when
the body contains a single occurrence of the token, that occurrence alone is
substituted, and the rest of the body is unchanged.
-/
theorem claim_C2_amended (x y p : List Char)
    (hx : ∀ i, i < x.length → ¬ TOKEN <+: (x ++ (TOKEN ++ y)).drop i)
    (hy : ¬ TOKEN <:+: y) :
    imageInjection (x ++ (TOKEN ++ y)) (some p) = x ++ (p ++ y) := by
  rw [show imageInjection (x ++ (TOKEN ++ y)) (some p)
      = if TOKEN <:+: x ++ (TOKEN ++ y) then replaceAll TOKEN p (x ++ (TOKEN ++ y))
        else replaceAll H1TAG (imgTag p ++ H1TAG) (x ++ (TOKEN ++ y)) from rfl]
  have hguard : TOKEN <:+: x ++ (TOKEN ++ y) := ⟨x, y, by simp⟩
  rw [if_pos hguard]
  rw [replaceAll_split TOKEN p x y token_ne_nil hx]
  rw [replaceAll_no_occurrence TOKEN p y hy]

/--
Claim C2 counterexample: a body with two occurrences of the placeholder
token has both substituted (no token remains), whereas substituting the
token exactly once would leave the second occurrence in place.
-/
theorem claim_C2_cex :
    imageInjection ("A[[PROFILE_PHOTO]]B[[PROFILE_PHOTO]]C".toList) (some photoPic)
        = "APICBPICC".toList ∧
    ¬ TOKEN <:+: imageInjection ("A[[PROFILE_PHOTO]]B[[PROFILE_PHOTO]]C".toList) (some photoPic) := by
  exact ⟨by decide, by decide⟩

/--
Claim C2 witness: the amended theorem applied at a concrete single-occurrence
body.
-/
theorem claim_C2_witness :
    imageInjection ("A".toList ++ (TOKEN ++ "B".toList)) (some photoPic)
      = "A".toList ++ (photoPic ++ "B".toList) :=
  claim_C2_amended "A".toList "B".toList photoPic (by decide) (by decide)

/--
Claim C3, corrected.  As stated, the claim is false: when the placeholder is
absent, `html.replace` inserts a copy of the image element before every
occurrence of the heading tag, not only before the first one (see the
counterexample).  Amended claim: the image element carrying the encoded photo
is inserted immediately before every occurrence of the `<h1>` tag (in
particular before the first).
-/
theorem claim_C3_amended (a b c p : List Char)
    (hT : ¬ TOKEN <:+: a ++ (H1TAG ++ (b ++ (H1TAG ++ c))))
    (ha : ∀ i, i < a.length → ¬ H1TAG <+: (a ++ (H1TAG ++ (b ++ (H1TAG ++ c)))).drop i)
    (hb : ∀ i, i < b.length → ¬ H1TAG <+: (b ++ (H1TAG ++ c)).drop i)
    (hc : ¬ H1TAG <:+: c) :
    imageInjection (a ++ (H1TAG ++ (b ++ (H1TAG ++ c)))) (some p)
      = a ++ ((imgTag p ++ H1TAG) ++ (b ++ ((imgTag p ++ H1TAG) ++ c))) := by
  rw [show imageInjection (a ++ (H1TAG ++ (b ++ (H1TAG ++ c)))) (some p)
      = if TOKEN <:+: a ++ (H1TAG ++ (b ++ (H1TAG ++ c)))
        then replaceAll TOKEN p (a ++ (H1TAG ++ (b ++ (H1TAG ++ c))))
        else replaceAll H1TAG (imgTag p ++ H1TAG) (a ++ (H1TAG ++ (b ++ (H1TAG ++ c)))) from rfl]
  rw [if_neg hT]
  rw [replaceAll_split H1TAG (imgTag p ++ H1TAG) a (b ++ (H1TAG ++ c)) (by decide) ha]
  rw [replaceAll_split H1TAG (imgTag p ++ H1TAG) b c (by decide) hb]
  rw [replaceAll_no_occurrence H1TAG (imgTag p ++ H1TAG) c hc]

/--
Claim C3 counterexample: a placeholder-free body with two `<h1>` headings and
a photo present receives the image element before both headings, not only
before the first.
-/
theorem claim_C3_cex :
    imageInjection ("<h1>A</h1><h1>B</h1>".toList) (some photoPic)
        = (imgTag photoPic ++ H1TAG) ++ ("A</h1>".toList ++ ((imgTag photoPic ++ H1TAG) ++ "B</h1>".toList)) ∧
    imageInjection ("<h1>A</h1><h1>B</h1>".toList) (some photoPic)
        ≠ imgTag photoPic ++ "<h1>A</h1><h1>B</h1>".toList := by
  exact ⟨by decide, by decide⟩

/--
Claim C3 witness: the amended theorem applied at a concrete two-heading body.
-/
theorem claim_C3_witness :
    imageInjection ("X".toList ++ (H1TAG ++ ("Y".toList ++ (H1TAG ++ "Z".toList)))) (some photoPic)
      = "X".toList ++ ((imgTag photoPic ++ H1TAG) ++ ("Y".toList ++ ((imgTag photoPic ++ H1TAG) ++ "Z".toList))) :=
  claim_C3_amended "X".toList "Y".toList "Z".toList photoPic (by decide) (by decide) (by decide) (by decide)

/- Character class `[A-Za-z0-9._%+-]` (the email local part, app.py line 434). -/
def isLocalChar (c : Char) : Bool :=
  c.isAlpha || c.isDigit || c == '.' || c == '_' || c == '%' || c == '+' || c == '-'

/- Character class `[A-Za-z0-9.-]` (the email domain, app.py line 434). -/
def isDomainChar (c : Char) : Bool :=
  c.isAlpha || c.isDigit || c == '.' || c == '-'

/- Python regex `\s` (ASCII whitespace; the contact strings here are ASCII). -/
def isSpaceChar (c : Char) : Bool :=
  c == ' ' || c == '\t' || c == '\n' || c == '\r' || c == '\x0b' || c == '\x0c'

/- Character class `[\d\-\s]` (the phone body, app.py line 444). -/
def isPhoneChar (c : Char) : Bool :=
  c.isDigit || c == '-' || isSpaceChar c

/- Character class `[^\s<|]` (the handle tail, app.py lines 454 and 468). -/
def isTailChar (c : Char) : Bool :=
  !(isSpaceChar c) && c != '<' && c != '|'

/-
Leftmost match of `[A-Za-z0-9._%+-]+@[A-Za-z0-9.-]+\.[A-Za-z]{2,}` anchored at
the head of `l`, following the backtracking order of CPython's `re`: the local
part and the domain run are maximal, the final dot is chosen as late as
possible such that at least two letters follow.  Returns the match length.
-/
def emailMatchAt (l : List Char) : Option Nat :=
  let loc := l.takeWhile isLocalChar
  if loc.isEmpty then none
  else
    match l.drop loc.length with
    | '@' :: rest1 =>
      let dom := rest1.takeWhile isDomainChar
      match (List.range dom.length).reverse.find? (fun j =>
          decide (1 ≤ j) && (dom.getD j ' ' == '.') &&
          decide (2 ≤ ((dom.drop (j + 1)).takeWhile Char.isAlpha).length)) with
      | some j => some (loc.length + 1 + j + 1 + ((dom.drop (j + 1)).takeWhile Char.isAlpha).length)
      | none => none
    | _ => none

/-
Match of `\d[\d\-\s]{6,}\d` at the head of `l` (the part of the phone pattern
after the optional plus): the run is maximal and the final digit is chosen as
late as possible, at least six run characters after the first digit.
-/
def phoneCore (l : List Char) : Option Nat :=
  match l with
  | d :: rest =>
    if d.isDigit then
      let run := rest.takeWhile isPhoneChar
      match (List.range run.length).reverse.find? (fun k =>
          decide (6 ≤ k) && (run.getD k ' ').isDigit) with
      | some k => some (k + 2)
      | none => none
    else none
  | [] => none

/- Leftmost match of `\+?\d[\d\-\s]{6,}\d` anchored at the head of `l`. -/
def phoneMatchAt (l : List Char) : Option Nat :=
  match l with
  | '+' :: rest => (phoneCore rest).map (· + 1)
  | _ => phoneCore l

/- Literal-prefix matcher: returns the literal's length when it heads `l`. -/
def litPre (lit l : List Char) : Option Nat :=
  if lit <+: l then some lit.length else none

/- First literal of the list that heads `l`, in the given preference order. -/
def firstSome (cands : List (List Char)) (l : List Char) : Option Nat :=
  cands.findSome? (fun lit => litPre lit l)

/-
Match of `(?:https?://)?(?:www\.)?linkedin\.com[^\s<|]*` at the head of `l`:
the optional groups are tried longest first, then the tail run is maximal.
-/
def linkedinAlt1 (l : List Char) : Option Nat :=
  (firstSome ["https://www.linkedin.com".toList, "https://linkedin.com".toList,
      "http://www.linkedin.com".toList, "http://linkedin.com".toList,
      "www.linkedin.com".toList, "linkedin.com".toList] l).map
    (fun n => n + ((l.drop n).takeWhile isTailChar).length)

/- Match of the alternation in app.py line 454: the URL form, else `LinkedIn`. -/
def linkedinMatchAt (l : List Char) : Option Nat :=
  match linkedinAlt1 l with
  | some n => some n
  | none => litPre "LinkedIn".toList l

/- Match of `(?:https?://)?(?:www\.)?github\.com[^\s<|]*` at the head of `l`. -/
def githubAlt1 (l : List Char) : Option Nat :=
  (firstSome ["https://www.github.com".toList, "https://github.com".toList,
      "http://www.github.com".toList, "http://github.com".toList,
      "www.github.com".toList, "github.com".toList] l).map
    (fun n => n + ((l.drop n).takeWhile isTailChar).length)

/- Match of the alternation in app.py line 468: the URL form, else `GitHub`. -/
def githubMatchAt (l : List Char) : Option Nat :=
  match githubAlt1 l with
  | some n => some n
  | none => litPre "GitHub".toList l

/-
`re.sub` with a matcher anchored at each position: scan left to right, wrap
each leftmost match, continue after the match end, never rescan replacements.
Every matcher above returns a positive length, so `cs.drop (k - 1)` is the
input with the whole match removed.
-/
def scanSubGo (matchAt : List Char → Option Nat) (wrap : List Char → List Char) :
    Nat → List Char → List Char
  | 0, l => l
  | _ + 1, [] => []
  | fuel + 1, c :: cs =>
    match matchAt (c :: cs) with
    | some k => wrap ((c :: cs).take k) ++ scanSubGo matchAt wrap fuel (cs.drop (k - 1))
    | none => c :: scanSubGo matchAt wrap fuel cs

def scanSub (matchAt : List Char → Option Nat) (wrap : List Char → List Char)
    (l : List Char) : List Char :=
  scanSubGo matchAt wrap l.length l

def SPAN_OPEN : List Char := "<span class=\"contact-item\">".toList

def SPAN_CLOSE : List Char := "</span>".toList

/- The icon image element embedded before a recognized item (app.py line 435). -/
def iconImg (ic : List Char) : List Char :=
  "<img src=\"".toList ++ ic ++ "\" class=\"contact-icon\" />".toList

/- Decoration for emails and phones: icon form, or plain span when no icon. -/
def itemWrap (ic : Option (List Char)) (m : List Char) : List Char :=
  match ic with
  | some icon => SPAN_OPEN ++ iconImg icon ++ m ++ SPAN_CLOSE
  | none => SPAN_OPEN ++ m ++ SPAN_CLOSE

/- The hyperlink built for handle matches (app.py line 457). -/
def anchorWrap (m : List Char) : List Char :=
  "<a href=\"".toList ++ (if "http".toList <+: m then m else "https://".toList ++ m) ++
    "\">".toList ++ m ++ "</a>".toList

/-
Decoration for network handles (app.py lines 454-478): with an icon, an icon
element plus a hyperlink when the match contains the network word and a dot;
without an icon, a plain span.
-/
def handleWrap (word : List Char) (ic : Option (List Char)) (m : List Char) : List Char :=
  match ic with
  | some icon =>
    SPAN_OPEN ++ iconImg icon ++
      (if word <:+: m.map Char.toLower ∧ '.' ∈ m then anchorWrap m else m) ++ SPAN_CLOSE
  | none => SPAN_OPEN ++ m ++ SPAN_CLOSE

def SEP_SPAN : List Char := "<span class=\"sep\">|</span>".toList

/-
The icon assets read from `static/resumes/icons` once per call (app.py lines
411-426); `none` models a missing asset, for which the decoration degrades to
a plain span.
-/
structure ContactIcons where
  email : Option (List Char)
  phone : Option (List Char)
  linkedin : Option (List Char)
  github : Option (List Char)

/-
The body of `repl` (app.py lines 428-483): the four category substitutions in
order — email, phone, LinkedIn, GitHub — each applied to the output of the
previous one, then the pipe separators restyled.
-/
def replContent (ic : ContactIcons) (content : List Char) : List Char :=
  let c1 := scanSub emailMatchAt (itemWrap ic.email) content
  let c2 := scanSub phoneMatchAt (itemWrap ic.phone) c1
  let c3 := scanSub linkedinMatchAt (handleWrap "linkedin".toList ic.linkedin) c2
  let c4 := scanSub githubMatchAt (handleWrap "github".toList ic.github) c3
  replaceAll "|".toList SEP_SPAN c4

def POPEN : List Char := "<p class=\"contact-info\">".toList

def PCLOSE : List Char := "</p>".toList

/- Index of the first occurrence of `</p>` in `l`, if any. -/
def closeIdx : List Char → Option Nat
  | [] => none
  | c :: cs => if PCLOSE <+: c :: cs then some 0 else (closeIdx cs).map (· + 1)

/-
`re.sub(r'(<p class="contact-info">)(.*?)(</p>)', repl, html, flags=re.S)`
(app.py line 485): at each position, a match starts with the literal opening
tag and extends (lazily) to the first following `</p>`; the replacement keeps
both tags and transforms the content.
-/
def subContactGo (f : List Char → List Char) : Nat → List Char → List Char
  | 0, l => l
  | _ + 1, [] => []
  | fuel + 1, c :: cs =>
    if POPEN <+: c :: cs then
      match closeIdx ((c :: cs).drop POPEN.length) with
      | some i =>
        POPEN ++ f (((c :: cs).drop POPEN.length).take i) ++ PCLOSE ++
          subContactGo f fuel (((c :: cs).drop POPEN.length).drop (i + PCLOSE.length))
      | none => c :: subContactGo f fuel cs
    else c :: subContactGo f fuel cs

/-
`inject_contact_icons` (app.py lines 402-485), parameterized by the icon
assets read from disk.  An empty input has no match and is returned unchanged
(the `if not html` guard).
-/
def inject_contact_icons (ic : ContactIcons) (html : List Char) : List Char :=
  subContactGo (replContent ic) html.length html

/-
Decomposition of an input into chunks: `Sum.inl` chunks are characters outside
any contact-info segment, `Sum.inr` chunks are the contents of the segments
(between the opening tag and the first following `</p>`).
-/
def contactChunksGo : Nat → List Char → List (Sum (List Char) (List Char))
  | 0, l => [Sum.inl l]
  | _ + 1, [] => []
  | fuel + 1, c :: cs =>
    if POPEN <+: c :: cs then
      match closeIdx ((c :: cs).drop POPEN.length) with
      | some i =>
        Sum.inr (((c :: cs).drop POPEN.length).take i) ::
          contactChunksGo fuel (((c :: cs).drop POPEN.length).drop (i + PCLOSE.length))
      | none => Sum.inl [c] :: contactChunksGo fuel cs
    else Sum.inl [c] :: contactChunksGo fuel cs

def contactChunks (l : List Char) : List (Sum (List Char) (List Char)) :=
  contactChunksGo l.length l

/-
Reassembly of a chunk decomposition: outside chunks verbatim, segment chunks
as opening tag, transformed content, closing tag.
-/
def flattenWith (f : List Char → List Char) :
    List (Sum (List Char) (List Char)) → List Char
  | [] => []
  | Sum.inl o :: rest => o ++ flattenWith f rest
  | Sum.inr m :: rest => POPEN ++ f m ++ PCLOSE ++ flattenWith f rest

theorem closeIdx_eq (l : List Char) :
    ∀ i, closeIdx l = some i →
      l = l.take i ++ (PCLOSE ++ l.drop (i + PCLOSE.length)) ∧ i + PCLOSE.length ≤ l.length := by
  induction l with
  | nil => intro i h; simp [closeIdx] at h
  | cons c cs ih =>
    intro i h
    rw [closeIdx] at h
    by_cases hp : PCLOSE <+: c :: cs
    · rw [if_pos hp] at h
      have hi : i = 0 := by
        have := h
        simp at this
        omega
      subst hi
      constructor
      · have := prefix_iff_eq_append.mp hp
        simpa using this.symm
      · have := hp.length_le
        simpa using this
    · rw [if_neg hp] at h
      match hcs : closeIdx cs with
      | none => rw [hcs] at h; simp at h
      | some i2 =>
        rw [hcs] at h
        simp at h
        have hrec := ih i2 hcs
        constructor
        · rw [← h]
          have : (c :: cs).take (i2 + 1) = c :: cs.take i2 := by simp
          rw [this]
          have hdrop : (c :: cs).drop (i2 + 1 + PCLOSE.length) = cs.drop (i2 + PCLOSE.length) := by
            have : i2 + 1 + PCLOSE.length = (i2 + PCLOSE.length) + 1 := by omega
            rw [this]
            simp
          rw [hdrop, cons_append]
          exact congrArg (c :: ·) hrec.1
        · rw [← h]
          simp only [length_cons]
          omega


theorem contactChunksGo_id :
    ∀ fuel l, l.length ≤ fuel →
      flattenWith (fun x => x) (contactChunksGo fuel l) = l := by
  intro fuel
  induction fuel with
  | zero =>
    intro l hlen
    have hl : l = [] := by
      cases l with
      | nil => rfl
      | cons c cs => simp at hlen
    subst hl
    rfl
  | succ n ih =>
    intro l hlen
    match l with
    | [] => rfl
    | c :: cs =>
      rw [contactChunksGo]
      by_cases hp : POPEN <+: c :: cs
      · rw [if_pos hp]
        rcases hci : closeIdx ((c :: cs).drop POPEN.length) with _ | i
        · simp only [hci, flattenWith]
          have hcslen : cs.length ≤ n := by simp only [length_cons] at hlen; omega
          rw [ih cs hcslen]
          rfl
        · simp only [hci, flattenWith]
          have hcl := closeIdx_eq _ i hci
          have hrest : (((c :: cs).drop POPEN.length).drop (i + PCLOSE.length)).length ≤ n := by
            simp only [length_drop, length_cons]
            simp only [length_cons] at hlen
            have hpop : 0 < POPEN.length := by decide
            omega
          rw [ih _ hrest]
          have hfront := prefix_iff_eq_append.mp hp
          conv_rhs => rw [← hfront]
          conv_rhs => rw [hcl.1]
          simp [append_assoc]
      · rw [if_neg hp]
        simp only [flattenWith]
        have hcslen : cs.length ≤ n := by simp only [length_cons] at hlen; omega
        rw [ih cs hcslen]
        rfl

theorem subContactGo_flatten (f : List Char → List Char) :
    ∀ fuel l, l.length ≤ fuel →
      subContactGo f fuel l = flattenWith f (contactChunksGo fuel l) := by
  intro fuel
  induction fuel with
  | zero =>
    intro l hlen
    have hl : l = [] := by
      cases l with
      | nil => rfl
      | cons c cs => simp at hlen
    subst hl
    rfl
  | succ n ih =>
    intro l hlen
    match l with
    | [] => rfl
    | c :: cs =>
      rw [subContactGo, contactChunksGo]
      by_cases hp : POPEN <+: c :: cs
      · rw [if_pos hp, if_pos hp]
        rcases hci : closeIdx ((c :: cs).drop POPEN.length) with _ | i
        · simp only [hci, flattenWith]
          have hcslen : cs.length ≤ n := by simp only [length_cons] at hlen; omega
          rw [ih cs hcslen]
          rfl
        · simp only [hci, flattenWith]
          have hrest : (((c :: cs).drop POPEN.length).drop (i + PCLOSE.length)).length ≤ n := by
            simp only [length_drop, length_cons]
            simp only [length_cons] at hlen
            have hpop : 0 < POPEN.length := by decide
            omega
          rw [ih _ hrest]
      · rw [if_neg hp, if_neg hp]
        simp only [flattenWith]
        have hcslen : cs.length ≤ n := by simp only [length_cons] at hlen; omega
        rw [ih cs hcslen]
        rfl

theorem flattenWith_all_left (f : List Char → List Char) :
    ∀ cks : List (Sum (List Char) (List Char)),
      (∀ ch ∈ cks, ch.isLeft) → flattenWith f cks = flattenWith (fun x => x) cks := by
  intro cks
  induction cks with
  | nil => intro _; rfl
  | cons ch rest ih =>
    intro h
    match ch with
    | Sum.inl o =>
      rw [flattenWith, flattenWith, ih (fun d hd => h d (mem_cons_of_mem _ hd))]
    | Sum.inr m =>
      have := h (Sum.inr m) (mem_cons_self _ _)
      simp at this

/- True when the input has at least one contact-info segment. -/
def hasContactSegment (html : List Char) : Bool :=
  (contactChunks html).any (fun ch => ch.isRight)

/- A convenient all-assets-missing icon configuration. -/
def noIcons : ContactIcons := ⟨none, none, none, none⟩

/--
Claim C4, confirmed: for every icon configuration and input string, the input
decomposes into chunks — characters outside contact-info segments and segment
contents — such that the input is the identity reassembly of the chunks and
the output of `inject_contact_icons` is the reassembly with every segment
content transformed; outside characters and both paragraph tags reappear
verbatim, so the function modifies only the content inside the segments.
-/
theorem claim_C4_frame (ic : ContactIcons) (html : List Char) :
    html = flattenWith (fun x => x) (contactChunks html) ∧
    inject_contact_icons ic html = flattenWith (replContent ic) (contactChunks html) :=
  ⟨(contactChunksGo_id html.length html le_rfl).symm,
    subContactGo_flatten (replContent ic) html.length html le_rfl⟩

/--
Claim C10, confirmed: on the empty input, and on every input without a
contact-info segment, `inject_contact_icons` returns its input unchanged.
-/
theorem claim_C10_identity (ic : ContactIcons) (html : List Char)
    (h : hasContactSegment html = false) :
    inject_contact_icons ic [] = [] ∧ inject_contact_icons ic html = html := by
  refine ⟨rfl, ?_⟩
  have hall : ∀ ch ∈ contactChunks html, ch.isLeft := by
    intro ch hch
    have := congrArg (fun b => b = false) h
    rw [hasContactSegment] at h
    rcases ch with o | m
    · rfl
    · exfalso
      have : (contactChunks html).any (fun ch => ch.isRight) = true :=
        any_eq_true.mpr ⟨Sum.inr m, hch, rfl⟩
      rw [h] at this
      exact Bool.false_ne_true this
  have h1 := subContactGo_flatten (replContent ic) html.length html le_rfl
  have h2 := flattenWith_all_left (replContent ic) (contactChunksGo html.length html) hall
  have h3 := contactChunksGo_id html.length html le_rfl
  show subContactGo (replContent ic) html.length html = html
  rw [h1]
  rw [h2, h3]

/--
Claim C10 witness: a concrete input without any contact-info segment is left
unchanged.
-/
theorem claim_C10_witness :
    hasContactSegment "<h1>JANE</h1>".toList = false ∧
      inject_contact_icons noIcons "<h1>JANE</h1>".toList = "<h1>JANE</h1>".toList :=
  ⟨by decide, (claim_C10_identity noIcons "<h1>JANE</h1>".toList (by decide)).2⟩

/--
Claim C5, refuted by the code (code bug): on the contact-info content
`12345678@ab.cd | 123-4567-890`, which contains one email address and one
phone number, the phone pattern re-matches the digit run inside the
already-decorated email, producing a nested second span inside the email's
span.  The email is therefore not wrapped in exactly one decorated span with
its exact text: no span in the output contains the email text as its direct
content.  The pipe separator is restyled as specified.
-/
theorem claim_C5_bug :
    inject_contact_icons noIcons
        "<p class=\"contact-info\">12345678@ab.cd | 123-4567-890</p>".toList
      = ("<p class=\"contact-info\"><span class=\"contact-item\">" ++
         "<span class=\"contact-item\">12345678</span>@ab.cd</span> " ++
         "<span class=\"sep\">|</span> " ++
         "<span class=\"contact-item\">123-4567-890</span></p>").toList ∧
    ¬ (SPAN_OPEN ++ ("12345678@ab.cd".toList ++ SPAN_CLOSE)) <:+:
        inject_contact_icons noIcons
          "<p class=\"contact-info\">12345678@ab.cd | 123-4567-890</p>".toList := by
  exact ⟨by decide, by decide⟩

/- Python truthiness of an optional string: `None` and the empty string are falsy. -/
def pyTruthy (o : Option (List Char)) : Bool :=
  match o with
  | some (_ :: _) => true
  | _ => false

/-
The fields of one POST submission to `index` (app.py lines 815-818), plus the
session/account state read before the POST branch (lines 781-794):
`savedResume` is true when the logged-in user's record has a retained resume
text.
-/
structure IndexForm where
  jobPost : Option (List Char)
  userData : Option (List Char)
  userPdfFilename : Option (List Char)
  profilePicFilename : Option (List Char)
  loggedIn : Bool
  savedResume : Bool

/-
The external collaborators of one submission, as pure oracles: PDF text
extraction, the two saved-resume sources, photo processing, the generation
service, and the PDF renderer's success bit.
-/
structure IndexEnv where
  extractResult : Option (List Char)
  supabaseSaved : Option (List Char)
  localSaved : Option (List Char)
  photoResult : Option (List Char)
  gen : List Char → List Char → Except Unit (List Char)
  pdfOk : Bool
  icons : ContactIcons

/-
Resolution of `final_data` (app.py lines 820-922): an uploaded PDF's extracted
text first; else, for a logged-in user with a saved resume, the Supabase text
then the local text; else the pasted text.
-/
def resolveFinalData (f : IndexForm) (env : IndexEnv) : List Char :=
  let fd0 : List Char :=
    if pyTruthy f.userPdfFilename then
      match env.extractResult with
      | some t => t
      | none => []
    else if f.loggedIn && f.savedResume then
      let sup := match env.supabaseSaved with
        | some t => t
        | none => []
      if sup ≠ [] then sup
      else
        match env.localSaved with
        | some t => t
        | none => []
    else []
  if fd0 = [] then f.userData.getD [] else fd0

inductive IndexOutcome where
  | inputError : IndexOutcome
  | rendered : List Char → IndexOutcome
  | systemError : IndexOutcome
deriving DecidableEq

def NUL : Char := Char.ofNat 0

/- The conditional null-byte sanitisation (app.py lines 957-969). -/
def stripNul (l : List Char) : List Char :=
  if NUL ∈ l then replaceAll [NUL] [] l else l

/- The photo value used by image injection: present only when a photo file was
uploaded and `process_profile_photo` returned a truthy value (lines 924-930, 982). -/
def effectivePhoto (f : IndexForm) (env : IndexEnv) : Option (List Char) :=
  if pyTruthy f.profilePicFilename then
    match env.photoResult with
    | some p => if p = [] then none else some p
    | none => none
  else none

/-
The POST branch of `index` (app.py lines 796-1081): resolve the candidate
text; fail with the input-error message when it or the job post is missing —
before any call to the generation service; otherwise call the service, run
image injection and contact-icon injection, and render.  The boolean records
whether `generate_resume_content` was invoked.
-/
def index_post (f : IndexForm) (env : IndexEnv) : IndexOutcome × Bool :=
  if resolveFinalData f env = [] ∨ f.jobPost.getD [] = [] then
    (IndexOutcome.inputError, false)
  else
    match env.gen (stripNul (resolveFinalData f env)) (stripNul (f.jobPost.getD [])) with
    | Except.error _ => (IndexOutcome.systemError, true)
    | Except.ok raw =>
      if env.pdfOk then
        (IndexOutcome.rendered
          (inject_contact_icons env.icons
            (imageInjection (stripNul raw) (effectivePhoto f env))), true)
      else (IndexOutcome.systemError, true)

/--
Claim C6, confirmed: a submission whose resolved candidate text is non-empty
but whose job description is empty (or missing) terminates with the
user-facing input-error outcome, and the generation service is never invoked.
-/
theorem claim_C6_no_generation (f : IndexForm) (env : IndexEnv)
    (hdata : resolveFinalData f env ≠ [])
    (hjob : f.jobPost.getD [] = []) :
    index_post f env = (IndexOutcome.inputError, false) := by
  unfold index_post
  rw [if_pos (Or.inr hjob)]

/- A concrete submission: pasted text, no uploads, empty job description. -/
def sampleForm : IndexForm :=
  { jobPost := some [], userData := some "MYTEXT".toList, userPdfFilename := none,
    profilePicFilename := none, loggedIn := false, savedResume := false }

/- A concrete environment whose generation oracle always fails. -/
def sampleEnv : IndexEnv :=
  { extractResult := none, supabaseSaved := none, localSaved := none,
    photoResult := none, gen := fun _ _ => Except.error (), pdfOk := false,
    icons := noIcons }

/--
Claim C6 witness: the theorem applied at the concrete submission.
-/
theorem claim_C6_witness :
    resolveFinalData sampleForm sampleEnv ≠ [] ∧
    index_post sampleForm sampleEnv = (IndexOutcome.inputError, false) :=
  ⟨by decide, claim_C6_no_generation sampleForm sampleEnv (by decide) rfl⟩

/-
An image of the external imaging library, modeled at the library's interface
(the spec treats decoding and resizing as an external collaborator): only the
geometry is represented.  Dimensions are rationals so that the source's true
division by two (app.py lines 255-258) is modeled exactly.
-/
structure PilImage where
  w : ℚ
  h : ℚ

/- Interface model of `Image.crop(box)`: the image of the given box. -/
def pilCrop (img : PilImage) (left top right bottom : ℚ) : PilImage :=
  ⟨right - left, bottom - top⟩

/- Interface model of `Image.resize(size)`: the image of the target size. -/
def pilResize (img : PilImage) (size : ℚ × ℚ) : PilImage :=
  ⟨size.1, size.2⟩

/- The centered square crop of `process_profile_photo` (app.py lines 252-259). -/
def photoCrop (img : PilImage) : PilImage :=
  let s := min img.w img.h
  pilCrop img ((img.w - s) / 2) ((img.h - s) / 2) ((img.w + s) / 2) ((img.h + s) / 2)

/- The fixed 200-by-200 resize of `process_profile_photo` (app.py line 262). -/
def photoResize (img : PilImage) : PilImage :=
  pilResize (photoCrop img) (200, 200)

/--
Claim C7, confirmed: for every decodable rectangular image (positive width
and height), portrait or landscape, the crop box is the centered square of
side `min(width, height)` — the cropped image is that square and the box is
symmetric in both axes — and the resized output is exactly 200 by 200.
-/
theorem claim_C7_geometry (img : PilImage) (hw : 0 < img.w) (hh : 0 < img.h) :
    (photoCrop img).w = min img.w img.h ∧
    (photoCrop img).h = min img.w img.h ∧
    (img.w - min img.w img.h) / 2 + (img.w + min img.w img.h) / 2 = img.w ∧
    (img.h - min img.w img.h) / 2 + (img.h + min img.w img.h) / 2 = img.h ∧
    photoResize img = ⟨200, 200⟩ := by
  refine ⟨?_, ?_, by ring, by ring, rfl⟩
  · show (img.w + min img.w img.h) / 2 - (img.w - min img.w img.h) / 2 = min img.w img.h
    ring
  · show (img.h + min img.w img.h) / 2 - (img.h - min img.w img.h) / 2 = min img.w img.h
    ring

/--
Claim C7 witness: the theorem applied at a concrete landscape image.
-/
theorem claim_C7_witness :
    (photoCrop ⟨300, 200⟩).w = 200 ∧ photoResize ⟨300, 200⟩ = ⟨200, 200⟩ :=
  ⟨((claim_C7_geometry ⟨300, 200⟩ (by norm_num) (by norm_num)).1).trans (by norm_num),
   (claim_C7_geometry ⟨300, 200⟩ (by norm_num) (by norm_num)).2.2.2.2⟩

inductive PhotoFailure where
  | undecodable : PhotoFailure
  | encodeFailure : PhotoFailure

/- The data-URI head of the returned representation (app.py line 268). -/
def DATA_PREFIX : List Char := "data:image/jpeg;base64,".toList

/-
The body of `process_profile_photo` (app.py lines 247-268) as it would run
without the surrounding `try`: decode (an oracle; `none` models undecodable
bytes), crop and resize, then encode to base64 (an oracle; `none` models a
save failure, e.g. on a zero-area image), and prepend the data-URI head.
-/
def photoBody (decoded : Option PilImage) (encode : PilImage → Option (List Char)) :
    Except PhotoFailure (List Char) :=
  match decoded with
  | none => Except.error PhotoFailure.undecodable
  | some img =>
    match encode (photoResize img) with
    | none => Except.error PhotoFailure.encodeFailure
    | some b64 => Except.ok (DATA_PREFIX ++ b64)

/-
`process_profile_photo` (app.py lines 246-282): the whole body runs inside
`try ... except`, and every failure is mapped to the explicit value `None`.
-/
def process_profile_photo (decoded : Option PilImage)
    (encode : PilImage → Option (List Char)) : Option (List Char) :=
  match photoBody decoded encode with
  | Except.ok s => some s
  | Except.error _ => none

/--
Claim C8, confirmed: for every decode and encode outcome,
`process_profile_photo` either returns the encoded representation or the
explicit failure value `none`; every error of the body — undecodable bytes or
encode failure (which covers the zero-area case) — is caught and mapped to
`none`, so no exception escapes the boundary.
-/
theorem claim_C8_total (decoded : Option PilImage)
    (encode : PilImage → Option (List Char)) :
    (decoded = none → process_profile_photo decoded encode = none) ∧
    (∀ img, decoded = some img → encode (photoResize img) = none →
      process_profile_photo decoded encode = none) ∧
    (∀ img b64, decoded = some img → encode (photoResize img) = some b64 →
      process_profile_photo decoded encode = some (DATA_PREFIX ++ b64)) ∧
    (∀ e, photoBody decoded encode = Except.error e →
      process_profile_photo decoded encode = none) := by
  refine ⟨?_, ?_, ?_, ?_⟩
  · intro h
    subst h
    rfl
  · intro img h he
    subst h
    simp [process_profile_photo, photoBody, he]
  · intro img b64 h he
    subst h
    simp [process_profile_photo, photoBody, he]
  · intro e he
    simp [process_profile_photo, he]

/--
Claim C8 witness: the theorem applied at a failing decode, and at a
successful decode and encode.
-/
theorem claim_C8_witness :
    process_profile_photo none (fun _ => none) = none ∧
    process_profile_photo (some ⟨300, 200⟩) (fun _ => some "QUJDRA==".toList)
      = some (DATA_PREFIX ++ "QUJDRA==".toList) :=
  ⟨(claim_C8_total none (fun _ => none)).1 rfl,
   (claim_C8_total (some ⟨300, 200⟩) (fun _ => some "QUJDRA==".toList)).2.2.1
     ⟨300, 200⟩ "QUJDRA==".toList rfl rfl⟩

/-
One record of the local `users.json` store, restricted to the fields touched
by the two `remove_user_resume` definitions: the retained resume text and
filename (written by `set_user_resume_text`), and a key named `resume` that
only the second definition touches.
-/
structure UserRec where
  resume_text : Option (List Char)
  resume_name : Option (List Char)
  resume : Option (List Char)
deriving DecidableEq

def emptyUser : UserRec := ⟨none, none, none⟩

/- `users.get(user_id)` on the JSON store, modeled as an association list. -/
def getUser (users : List (List Char × UserRec)) (uid : List Char) : Option UserRec :=
  (users.find? (fun kv => kv.1 == uid)).map (fun kv => kv.2)

/- `users[user_id] = user`: replace the first binding of the key, else append. -/
def setUser : List (List Char × UserRec) → List Char → UserRec → List (List Char × UserRec)
  | [], uid, u => [(uid, u)]
  | kv :: rest, uid, u =>
    if kv.1 == uid then (uid, u) :: rest else kv :: setUser rest uid u

/-
The first definition of `remove_user_resume` (app.py lines 143-151): deletes
the `resume_text` and `resume_name` keys.  In Python this definition is
shadowed by the second one below and is never callable.
-/
def remove_user_resume_shadowed (users : List (List Char × UserRec)) (uid : List Char) :
    List (List Char × UserRec) :=
  let u := (getUser users uid).getD emptyUser
  setUser users uid { u with resume_text := none, resume_name := none }

/-
The second definition of `remove_user_resume` (app.py lines 153-159), the one
in effect at call time because a later Python `def` of the same name rebinds
it: deletes only a key named `resume`.
-/
def remove_user_resume (users : List (List Char × UserRec)) (uid : List Char) :
    List (List Char × UserRec) :=
  let u := (getUser users uid).getD emptyUser
  setUser users uid { u with resume := none }

/-
The store mutation of the `delete_resume` route (app.py lines 719-746): when
the user exists and has a truthy `resume_text` or `resume_name`, it calls
`remove_user_resume` (the definition in effect).
-/
def delete_resume (users : List (List Char × UserRec)) (uid : List Char) :
    List (List Char × UserRec) :=
  match getUser users uid with
  | some u =>
    if pyTruthy u.resume_text || pyTruthy u.resume_name then
      remove_user_resume users uid
    else users
  | none => users

theorem getUser_setUser :
    ∀ (users : List (List Char × UserRec)) (uid : List Char) (u : UserRec),
      getUser (setUser users uid u) uid = some u := by
  intro users
  induction users with
  | nil =>
    intro uid u
    simp [setUser, getUser, List.find?]
  | cons kv rest ih =>
    intro uid u
    rw [setUser]
    by_cases hk : kv.1 == uid
    · rw [if_pos hk]
      simp [getUser, List.find?]
    · rw [if_neg hk]
      have hkf : (kv.1 == uid) = false := by simpa using hk
      simp only [getUser, List.find?, hkf]
      exact ih uid u

/--
Claim C9, confirmed: for every record in the account store, calling
`remove_user_resume` — the definition in effect, as invoked by the
`delete_resume` route — leaves the record's `resume_text` and `resume_name`
fields unchanged and clears only the `resume` key, because the second Python
definition shadows the first; the shadowed first definition would have
cleared `resume_text` and `resume_name` instead, and `delete_resume` invokes
the effective definition whenever its guard holds.
-/
theorem claim_C9_shadowing (users : List (List Char × UserRec)) (uid : List Char)
    (u : UserRec) (hu : getUser users uid = some u) :
    getUser (remove_user_resume users uid) uid = some { u with resume := none } ∧
    getUser (remove_user_resume_shadowed users uid) uid
      = some { u with resume_text := none, resume_name := none } ∧
    ((pyTruthy u.resume_text || pyTruthy u.resume_name) = true →
      getUser (delete_resume users uid) uid = some { u with resume := none }) := by
  refine ⟨?_, ?_, ?_⟩
  · rw [remove_user_resume, hu]
    exact getUser_setUser users uid _
  · rw [remove_user_resume_shadowed, hu]
    exact getUser_setUser users uid _
  · intro hg
    have hd : delete_resume users uid = remove_user_resume users uid := by
      rw [delete_resume, hu]
      simp [hg]
    rw [hd, remove_user_resume, hu]
    exact getUser_setUser users uid _

/- A concrete one-user store with all three fields present. -/
def sampleUsers : List (List Char × UserRec) :=
  [("u1".toList, ⟨some "T".toList, some "N".toList, some "R".toList⟩)]

/--
Claim C9 witness: the theorem applied at the concrete store.
-/
theorem claim_C9_witness :
    getUser sampleUsers "u1".toList
      = some ⟨some "T".toList, some "N".toList, some "R".toList⟩ ∧
    getUser (remove_user_resume sampleUsers "u1".toList) "u1".toList
      = some ⟨some "T".toList, some "N".toList, none⟩ :=
  ⟨by decide,
   (claim_C9_shadowing sampleUsers "u1".toList
     ⟨some "T".toList, some "N".toList, some "R".toList⟩ (by decide)).1⟩
